import Mathlib

/-!
Shallow embedding of the guess-trade auction server (`src/src/main.rs`).

The server keeps a single `AppState` behind a mutex; every handler acquires
the lock for its whole duration, so each HTTP call is one atomic transition
on `AppState`.  We model each handler as a pure function from the state
(plus the wall-clock value `now`, read inside the critical section) to an
outcome and the successor state.  `HashMap<String, UserAccount>` is modelled
as an association list with first-match lookup and first-match in-place
update; `BTreeMap<i64,i64>` likewise (its keys are distinct, which theorems
assume via `Nodup` hypotheses where it matters).  `i64` is modelled as `Int`
(no claim touches wrap-around).  Each `return` site of a handler becomes one
constructor of its outcome type, so the HTTP status and body are derived
functions of the outcome.
-/

namespace GuessTrade

/-- `UserAccount` from main.rs: balance and the one-shot done_trade flag. -/
structure UserAccount where
  balance : Int
  done_trade : Bool
deriving Repr, DecidableEq

/-- `AppState` from main.rs: users map, trade-start timestamp, fee, ask book. -/
structure AppState where
  users : List (String × UserAccount)
  trade_start_nanos : Int
  fee : Int
  asks : List (Int × Int)
deriving Repr, DecidableEq

/-- `HashMap::get`: first-match lookup in the association list. -/
def lookupUser : List (String × UserAccount) → String → Option UserAccount
  | [], _ => none
  | (n, ua) :: rest, u => if n = u then some ua else lookupUser rest u

/-- `HashMap::get_mut` followed by a field write: replace the first match. -/
def updateUser : List (String × UserAccount) → String → UserAccount → List (String × UserAccount)
  | [], _, _ => []
  | (n, ua) :: rest, u, ua2 =>
    if n = u then (n, ua2) :: rest else (n, ua) :: updateUser rest u ua2

/-- `BTreeMap::get` on the ask book: first-match lookup by price. -/
def asksLookup : List (Int × Int) → Int → Option Int
  | [], _ => none
  | (q, v) :: rest, p => if q = p then some v else asksLookup rest p

/-- The `asks.entry(price)` block of `user_bid` (main.rs lines 157-173):
vacant or exhausted entry leaves the book unchanged and reports no match;
otherwise the volume is decremented, the entry removed when it reaches 0,
and a match is reported. -/
def decrementAsk : List (Int × Int) → Int → List (Int × Int) × Bool
  | [], _ => ([], false)
  | (q, v) :: rest, p =>
    if q = p then
      if v ≤ 0 then ((q, v) :: rest, false)
      else if v - 1 ≤ 0 then (rest, true)
      else ((q, v - 1) :: rest, true)
    else
      let r := decrementAsk rest p
      ((q, v) :: r.1, r.2)

/-- The HTTP status codes the handlers return. -/
inductive Status
  | OK
  | NOT_FOUND
  | FORBIDDEN
deriving Repr, DecidableEq

/-- One constructor per `return` site of `user_bid`. -/
inductive BidOutcome
  | userNotFound
  | insufficientFunds
  | notYetOpen
  | alreadyTraded
  | noMatch
  | matched
deriving Repr, DecidableEq

/-- Status code attached to each `user_bid` return site. -/
def BidOutcome.status : BidOutcome → Status
  | .userNotFound => .NOT_FOUND
  | .insufficientFunds => .FORBIDDEN
  | .notYetOpen => .FORBIDDEN
  | .alreadyTraded => .FORBIDDEN
  | .noMatch => .OK
  | .matched => .OK

/-- The `trade_succ` field of the `BidResult` body at each return site
(`BidResult::default()` has `trade_succ = false`). -/
def BidOutcome.trade_succ : BidOutcome → Bool
  | .matched => true
  | _ => false

/-- `user_bid` handler (main.rs lines 127-184). -/
def user_bid (st : AppState) (uname : String) (price : Int) (now : Int) :
    BidOutcome × AppState :=
  let fee := st.fee
  let start_ts := st.trade_start_nanos
  match lookupUser st.users uname with
  | none => (.userNotFound, st)
  | some ua =>
    if ua.balance < fee then (.insufficientFunds, st)
    else
      let ua1 : UserAccount := { ua with balance := ua.balance - fee }
      let st1 : AppState := { st with users := updateUser st.users uname ua1 }
      if now < start_ts then (.notYetOpen, st1)
      else if ua1.done_trade then (.alreadyTraded, st1)
      else
        let r := decrementAsk st1.asks price
        if r.2 then
          let ua2 : UserAccount :=
            { ua1 with balance := ua1.balance - price, done_trade := true }
          (.matched, { st1 with users := updateUser st1.users uname ua2, asks := r.1 })
        else (.noMatch, st1)

/-- Body of a successful ping: `PingResult` from main.rs. -/
structure PingResult where
  now_nanos : Int
  trade_start_nanos : Int
  balance : Int
deriving Repr, DecidableEq

/-- One constructor per `return` site of `user_ping`. -/
inductive PingOutcome
  | userNotFound
  | insufficientFunds
  | ok (res : PingResult)
deriving Repr, DecidableEq

/-- `user_ping` handler (main.rs lines 216-235). -/
def user_ping (st : AppState) (uname : String) (now : Int) :
    PingOutcome × AppState :=
  let fee := st.fee
  let start_ts := st.trade_start_nanos
  match lookupUser st.users uname with
  | none => (.userNotFound, st)
  | some ua =>
    if ua.balance < fee then (.insufficientFunds, st)
    else
      let ua1 : UserAccount := { ua with balance := ua.balance - fee }
      (.ok ⟨now, start_ts, ua1.balance⟩,
        { st with users := updateUser st.users uname ua1 })

/-- One constructor per `return` site of `user_check`; `ok` carries the
ask-book snapshot of the `CheckResult` body. -/
inductive CheckOutcome
  | userNotFound
  | insufficientFunds
  | notYetOpen
  | ok (asks : List (Int × Int))
deriving Repr, DecidableEq

/-- `user_check` handler (main.rs lines 187-213). -/
def user_check (st : AppState) (uname : String) (now : Int) :
    CheckOutcome × AppState :=
  let fee := st.fee
  let start_ts := st.trade_start_nanos
  match lookupUser st.users uname with
  | none => (.userNotFound, st)
  | some ua =>
    if ua.balance < fee then (.insufficientFunds, st)
    else
      let ua1 : UserAccount := { ua with balance := ua.balance - fee }
      let st1 : AppState := { st with users := updateUser st.users uname ua1 }
      if now < start_ts then (.notYetOpen, st1)
      else (.ok st1.asks, st1)

/-- `Vec::sort_by_key(|(u, ua)| - ua.balance)`: stable sort ascending by
negated balance, modelled as insertion sort. -/
def insertByNegBalance (x : String × UserAccount) :
    List (String × UserAccount) → List (String × UserAccount)
  | [] => [x]
  | y :: ys =>
    if -x.2.balance ≤ -y.2.balance then x :: y :: ys
    else y :: insertByNegBalance x ys

/-- Insertion sort by the key `- balance` (descending balance). -/
def sortByNegBalance : List (String × UserAccount) → List (String × UserAccount)
  | [] => []
  | x :: xs => insertByNegBalance x (sortByNegBalance xs)

/-- `BoardResult` body from main.rs. -/
structure BoardResult where
  done_users : List (String × UserAccount)
  running_users : List (String × UserAccount)
deriving Repr, DecidableEq

/-- `admin_board` handler (main.rs lines 103-124): partition the users by
`done_trade` in enumeration order, then sort each side by `- balance`.
It only reads the state, so no successor state is returned. -/
def admin_board (st : AppState) : BoardResult :=
  { done_users := sortByNegBalance (st.users.filter (fun x => x.2.done_trade)),
    running_users := sortByNegBalance (st.users.filter (fun x => !x.2.done_trade)) }

/-- One serialized API call: the three user handlers carry the wall-clock
value `now` that the handler reads inside the critical section. -/
inductive Op
  | ping (u : String) (now : Int)
  | check (u : String) (now : Int)
  | bid (u : String) (price : Int) (now : Int)
  | board
deriving Repr, DecidableEq

/-- State effect of one call (board is read-only). -/
def applyOp (st : AppState) : Op → AppState
  | .ping u now => (user_ping st u now).2
  | .check u now => (user_check st u now).2
  | .bid u p now => (user_bid st u p now).2
  | .board => st

/-- Run a serialized sequence of calls, as the single lock interleaves them. -/
def run (st : AppState) : List Op → AppState
  | [] => st
  | op :: ops => run (applyOp st op) ops

/-- Balance of a user as the state records it. -/
def balOf (st : AppState) (u : String) : Option Int :=
  (lookupUser st.users u).map (fun ua => ua.balance)

/-- done_trade flag of a user as the state records it. -/
def doneOf (st : AppState) (u : String) : Option Bool :=
  (lookupUser st.users u).map (fun ua => ua.done_trade)

/-- Remaining volume at a price level, 0 when the level is absent. -/
def volAt (st : AppState) (p : Int) : Int :=
  (asksLookup st.asks p).getD 0

/-- Total volume held by the ask book. -/
def totalVol (asks : List (Int × Int)) : Int :=
  (asks.map Prod.snd).sum

/-- Number of users whose done_trade flag is set. -/
def doneCount (users : List (String × UserAccount)) : Nat :=
  (users.filter (fun x => x.2.done_trade)).length

/-- A bid by `u` at clock `now` passes the user-side gates of `user_bid`
(user exists, balance covers the fee, trading open, not already traded),
so it reaches the ask-book matching step. -/
def passesGates (st : AppState) (u : String) (now : Int) : Bool :=
  match lookupUser st.users u with
  | none => false
  | some ua =>
    decide (st.fee ≤ ua.balance) && decide (st.trade_start_nanos ≤ now) && !ua.done_trade

/-- Number of bids at price `p` along the trace that pass the user-side
gates at their own point of execution. -/
def gateCount (st : AppState) : List Op → Int → Nat
  | [], _ => 0
  | op :: ops, p =>
    match op with
    | .bid u q now =>
      (if q = p ∧ passesGates st u now = true then 1 else 0) +
        gateCount (applyOp st op) ops p
    | _ => gateCount (applyOp st op) ops p

/-- Number of bids at price `p` along the trace whose call returns
`trade_succ = true`. -/
def succAtPrice (st : AppState) : List Op → Int → Nat
  | [], _ => 0
  | op :: ops, p =>
    match op with
    | .bid u q now =>
      (if q = p ∧ (user_bid st u q now).1 = .matched then 1 else 0) +
        succAtPrice (applyOp st op) ops p
    | _ => succAtPrice (applyOp st op) ops p

/-- Number of bids by user `u` along the trace whose call returns
`trade_succ = true`. -/
def succByUser (st : AppState) : List Op → String → Nat
  | [], _ => 0
  | op :: ops, u =>
    match op with
    | .bid w q now =>
      (if w = u ∧ (user_bid st w q now).1 = .matched then 1 else 0) +
        succByUser (applyOp st op) ops u
    | _ => succByUser (applyOp st op) ops u

/-- Number of bid calls at price `p` in a trace, counted statically. -/
def bidsAtPrice : List Op → Int → Nat
  | [], _ => 0
  | op :: ops, p =>
    match op with
    | .bid _ q _ => (if q = p then 1 else 0) + bidsAtPrice ops p
    | _ => bidsAtPrice ops p

/-- The scenario configuration of spec §8: one user `a` with balance 100,
fee 10, trading open since 0, one unit on ask at price 50. -/
def demoState : AppState :=
  { users := [("a", ⟨100, false⟩)],
    trade_start_nanos := 0, fee := 10, asks := [(50, 1)] }

/-- A configuration whose only ask price exceeds the single user's funds. -/
def overdrawState : AppState :=
  { users := [("a", ⟨10, false⟩)],
    trade_start_nanos := 0, fee := 0, asks := [(100, 1)] }

/-- A configuration whose fee exhausts the winner's funds after one trade. -/
def bigFeeState : AppState :=
  { users := [("a", ⟨100, false⟩)],
    trade_start_nanos := 0, fee := 60, asks := [(0, 2)] }

/-- Two bidders, the second unable to pay the fee; three units at price 5. -/
def twoUserState : AppState :=
  { users := [("a", ⟨100, false⟩), ("b", ⟨0, false⟩)],
    trade_start_nanos := 0, fee := 10, asks := [(5, 3)] }

/-- Two serialized bids at price 5, one per user of `twoUserState`. -/
def twoUserOps : List Op := [.bid "a" 5 1, .bid "b" 5 1]

/-! ### Association-list laws -/

theorem lookupUser_updateUser_self (users : List (String × UserAccount)) (u : String)
    (ua ua2 : UserAccount) (h : lookupUser users u = some ua) :
    lookupUser (updateUser users u ua2) u = some ua2 := by
  induction users with
  | nil => simp [lookupUser] at h
  | cons x rest ih =>
    obtain ⟨n, a⟩ := x
    by_cases hn : n = u
    · simp [lookupUser, updateUser, hn]
    · simp [lookupUser, updateUser, hn] at h ⊢
      exact ih h

theorem lookupUser_updateUser_ne (users : List (String × UserAccount)) (u w : String)
    (ua2 : UserAccount) (h : w ≠ u) :
    lookupUser (updateUser users u ua2) w = lookupUser users w := by
  induction users with
  | nil => simp [updateUser]
  | cons x rest ih =>
    obtain ⟨n, a⟩ := x
    by_cases hn : n = u
    · subst hn
      simp [lookupUser, updateUser, Ne.symm h]
    · simp [lookupUser, updateUser, hn]
      by_cases hw : n = w <;> simp [hw, ih]

theorem updateUser_keys (users : List (String × UserAccount)) (u : String)
    (ua2 : UserAccount) :
    (updateUser users u ua2).map Prod.fst = users.map Prod.fst := by
  induction users with
  | nil => simp [updateUser]
  | cons x rest ih =>
    obtain ⟨n, a⟩ := x
    by_cases hn : n = u <;> simp [updateUser, hn, ih]

theorem doneCount_updateUser_keep (users : List (String × UserAccount)) (u : String)
    (ua ua2 : UserAccount) (h : lookupUser users u = some ua)
    (hd : ua2.done_trade = ua.done_trade) :
    doneCount (updateUser users u ua2) = doneCount users := by
  induction users with
  | nil => simp [lookupUser] at h
  | cons x rest ih =>
    obtain ⟨n, a⟩ := x
    by_cases hn : n = u
    · simp [lookupUser, hn] at h
      subst h
      cases hda : a.done_trade <;>
        rw [hda] at hd <;>
          simp [updateUser, hn, doneCount, List.filter_cons, hd, hda]
    · simp [lookupUser, hn] at h
      have hrec := ih h
      simp [doneCount] at hrec
      cases hda : a.done_trade <;>
        simp [updateUser, hn, doneCount, List.filter_cons, hda, hrec]

theorem doneCount_updateUser_set (users : List (String × UserAccount)) (u : String)
    (ua ua2 : UserAccount) (h : lookupUser users u = some ua)
    (hoff : ua.done_trade = false) (hon : ua2.done_trade = true) :
    doneCount (updateUser users u ua2) = doneCount users + 1 := by
  induction users with
  | nil => simp [lookupUser] at h
  | cons x rest ih =>
    obtain ⟨n, a⟩ := x
    by_cases hn : n = u
    · simp [lookupUser, hn] at h
      subst h
      simp [updateUser, hn, doneCount, List.filter_cons, hoff, hon]
    · simp [lookupUser, hn] at h
      have hrec := ih h
      simp [doneCount] at hrec
      cases hda : a.done_trade <;>
        simp [updateUser, hn, doneCount, List.filter_cons, hda, hrec]

/-! ### Ask-book laws -/

theorem decrementAsk_matched_iff (asks : List (Int × Int)) (p : Int) :
    (decrementAsk asks p).2 = true ↔ ∃ v, asksLookup asks p = some v ∧ 0 < v := by
  induction asks with
  | nil => simp [decrementAsk, asksLookup]
  | cons x rest ih =>
    obtain ⟨q, v⟩ := x
    by_cases hq : q = p
    · by_cases hv : v ≤ 0
      · simp [decrementAsk, asksLookup, hq, hv]
      · by_cases hv1 : v - 1 ≤ 0 <;>
          simp [decrementAsk, asksLookup, hq, hv, hv1] <;> omega
    · by_cases hv : v ≤ 0 <;>
        by_cases hv1 : v - 1 ≤ 0 <;>
          simp [decrementAsk, asksLookup, hq, hv, hv1, ih]

theorem decrementAsk_not_matched (asks : List (Int × Int)) (p : Int)
    (h : (decrementAsk asks p).2 = false) : (decrementAsk asks p).1 = asks := by
  induction asks with
  | nil => simp [decrementAsk]
  | cons x rest ih =>
    obtain ⟨q, v⟩ := x
    by_cases hq : q = p
    · by_cases hv : v ≤ 0
      · simp [decrementAsk, hq, hv]
      · by_cases hv1 : v - 1 ≤ 0 <;> simp [decrementAsk, hq, hv, hv1] at h
    · simp [decrementAsk, hq] at h ⊢
      exact ih h

theorem totalVol_decrementAsk (asks : List (Int × Int)) (p : Int)
    (h : (decrementAsk asks p).2 = true) :
    totalVol (decrementAsk asks p).1 = totalVol asks - 1 := by
  induction asks with
  | nil => simp [decrementAsk] at h
  | cons x rest ih =>
    obtain ⟨q, v⟩ := x
    by_cases hq : q = p
    · by_cases hv : v ≤ 0
      · simp [decrementAsk, hq, hv] at h
      · by_cases hv1 : v - 1 ≤ 0
        · simp [decrementAsk, hq, hv, hv1, totalVol]
          omega
        · simp [decrementAsk, hq, hv, hv1, totalVol]
          omega
    · simp [decrementAsk, hq] at h ⊢
      simp [totalVol] at ih ⊢
      have := ih h
      omega

theorem asksLookup_decrementAsk_ne (asks : List (Int × Int)) (q p : Int)
    (h : q ≠ p) : asksLookup (decrementAsk asks q).1 p = asksLookup asks p := by
  induction asks with
  | nil => simp [decrementAsk]
  | cons x rest ih =>
    obtain ⟨r, v⟩ := x
    by_cases hr : r = q
    · subst hr
      by_cases hv : v ≤ 0
      · simp [decrementAsk, hv]
      · by_cases hv1 : v - 1 ≤ 0 <;>
          simp [decrementAsk, hv, hv1, asksLookup, h]
    · simp [decrementAsk, hr, asksLookup]
      by_cases hp : r = p <;> simp [hp, ih]

theorem asksLookup_mem_of_some (asks : List (Int × Int)) (p v : Int)
    (h : asksLookup asks p = some v) : p ∈ asks.map Prod.fst := by
  induction asks with
  | nil => simp [asksLookup] at h
  | cons x rest ih =>
    obtain ⟨q, w⟩ := x
    by_cases hq : q = p
    · simp [hq]
    · simp [asksLookup, hq] at h
      simp [ih h]

theorem asksLookup_none_of_not_mem (asks : List (Int × Int)) (p : Int)
    (h : p ∉ asks.map Prod.fst) : asksLookup asks p = none := by
  rcases hl : asksLookup asks p with _ | v
  · rfl
  · exact absurd (asksLookup_mem_of_some asks p v hl) h

theorem asksLookup_decrementAsk_self (asks : List (Int × Int)) (p v : Int)
    (hnd : (asks.map Prod.fst).Nodup)
    (h : asksLookup asks p = some v) (hv : 0 < v) :
    asksLookup (decrementAsk asks p).1 p =
      if v ≤ 1 then none else some (v - 1) := by
  induction asks with
  | nil => simp [asksLookup] at h
  | cons x rest ih =>
    obtain ⟨q, w⟩ := x
    simp at hnd
    by_cases hq : q = p
    · subst hq
      simp [asksLookup] at h
      subst h
      by_cases hv1 : w - 1 ≤ 0
      · have hrest : asksLookup rest q = none := by
          apply asksLookup_none_of_not_mem
          intro hmem
          simp [List.mem_map] at hmem
          obtain ⟨b, hb⟩ := hmem
          exact hnd.1 b hb
        simp [decrementAsk, hv1, not_le.mpr hv, hrest]
        rw [if_pos (by omega : w ≤ 1)]
      · simp [decrementAsk, hv1, not_le.mpr hv, asksLookup]
        omega
    · simp [asksLookup, hq] at h
      simp [decrementAsk, hq, asksLookup]
      exact ih hnd.2 h

theorem decrementAsk_keys_sublist (asks : List (Int × Int)) (p : Int) :
    ((decrementAsk asks p).1.map Prod.fst).Sublist (asks.map Prod.fst) := by
  induction asks with
  | nil => simp [decrementAsk]
  | cons x rest ih =>
    obtain ⟨q, v⟩ := x
    by_cases hq : q = p
    · by_cases hv : v ≤ 0
      · simp [decrementAsk, hq, hv]
      · by_cases hv1 : v - 1 ≤ 0 <;> simp [decrementAsk, hq, hv, hv1]
    · simp [decrementAsk, hq]
      exact ih

theorem decrementAsk_keys_nodup (asks : List (Int × Int)) (p : Int)
    (hnd : (asks.map Prod.fst).Nodup) :
    ((decrementAsk asks p).1.map Prod.fst).Nodup :=
  (decrementAsk_keys_sublist asks p).nodup hnd

/-! ### Shape of each handler, one lemma per return site -/

theorem user_bid_notFound (st : AppState) (u : String) (p t : Int)
    (h : lookupUser st.users u = none) :
    user_bid st u p t = (.userNotFound, st) := by
  simp [user_bid, h]

theorem user_bid_insufficient (st : AppState) (u : String) (p t : Int)
    (ua : UserAccount) (h : lookupUser st.users u = some ua)
    (hb : ua.balance < st.fee) :
    user_bid st u p t = (.insufficientFunds, st) := by
  simp [user_bid, h, hb]

theorem user_bid_notYetOpen (st : AppState) (u : String) (p t : Int)
    (ua : UserAccount) (h : lookupUser st.users u = some ua)
    (hb : st.fee ≤ ua.balance) (ht : t < st.trade_start_nanos) :
    user_bid st u p t =
      (.notYetOpen,
        { st with users := (updateUser st.users u
            { ua with balance := ua.balance - st.fee }) }) := by
  simp [user_bid, h, not_lt.mpr hb, ht]

theorem user_bid_alreadyTraded (st : AppState) (u : String) (p t : Int)
    (ua : UserAccount) (h : lookupUser st.users u = some ua)
    (hb : st.fee ≤ ua.balance) (ht : st.trade_start_nanos ≤ t)
    (hd : ua.done_trade = true) :
    user_bid st u p t =
      (.alreadyTraded,
        { st with users := (updateUser st.users u
            { ua with balance := ua.balance - st.fee }) }) := by
  simp [user_bid, h, not_lt.mpr hb, not_lt.mpr ht, hd]

theorem user_bid_noMatch (st : AppState) (u : String) (p t : Int)
    (ua : UserAccount) (h : lookupUser st.users u = some ua)
    (hb : st.fee ≤ ua.balance) (ht : st.trade_start_nanos ≤ t)
    (hd : ua.done_trade = false) (hm : (decrementAsk st.asks p).2 = false) :
    user_bid st u p t =
      (.noMatch,
        { st with users := (updateUser st.users u
            { ua with balance := ua.balance - st.fee }) }) := by
  simp [user_bid, h, not_lt.mpr hb, not_lt.mpr ht, hd, hm]

theorem user_bid_matched (st : AppState) (u : String) (p t : Int)
    (ua : UserAccount) (h : lookupUser st.users u = some ua)
    (hb : st.fee ≤ ua.balance) (ht : st.trade_start_nanos ≤ t)
    (hd : ua.done_trade = false) (hm : (decrementAsk st.asks p).2 = true) :
    user_bid st u p t =
      (.matched,
        { st with
            users := updateUser (updateUser st.users u
                { ua with balance := ua.balance - st.fee }) u
              { balance := ua.balance - st.fee - p, done_trade := true },
            asks := (decrementAsk st.asks p).1 }) := by
  simp [user_bid, h, not_lt.mpr hb, not_lt.mpr ht, hd, hm]

theorem user_ping_notFound (st : AppState) (u : String) (t : Int)
    (h : lookupUser st.users u = none) :
    user_ping st u t = (.userNotFound, st) := by
  simp [user_ping, h]

theorem user_ping_insufficient (st : AppState) (u : String) (t : Int)
    (ua : UserAccount) (h : lookupUser st.users u = some ua)
    (hb : ua.balance < st.fee) :
    user_ping st u t = (.insufficientFunds, st) := by
  simp [user_ping, h, hb]

theorem user_ping_ok (st : AppState) (u : String) (t : Int)
    (ua : UserAccount) (h : lookupUser st.users u = some ua)
    (hb : st.fee ≤ ua.balance) :
    user_ping st u t =
      (.ok ⟨t, st.trade_start_nanos, ua.balance - st.fee⟩,
        { st with users := (updateUser st.users u
            { ua with balance := ua.balance - st.fee }) }) := by
  simp [user_ping, h, not_lt.mpr hb]

theorem user_check_notFound (st : AppState) (u : String) (t : Int)
    (h : lookupUser st.users u = none) :
    user_check st u t = (.userNotFound, st) := by
  simp [user_check, h]

theorem user_check_insufficient (st : AppState) (u : String) (t : Int)
    (ua : UserAccount) (h : lookupUser st.users u = some ua)
    (hb : ua.balance < st.fee) :
    user_check st u t = (.insufficientFunds, st) := by
  simp [user_check, h, hb]

theorem user_check_notYetOpen (st : AppState) (u : String) (t : Int)
    (ua : UserAccount) (h : lookupUser st.users u = some ua)
    (hb : st.fee ≤ ua.balance) (ht : t < st.trade_start_nanos) :
    user_check st u t =
      (.notYetOpen,
        { st with users := (updateUser st.users u
            { ua with balance := ua.balance - st.fee }) }) := by
  simp [user_check, h, not_lt.mpr hb, ht]

theorem user_check_ok (st : AppState) (u : String) (t : Int)
    (ua : UserAccount) (h : lookupUser st.users u = some ua)
    (hb : st.fee ≤ ua.balance) (ht : st.trade_start_nanos ≤ t) :
    user_check st u t =
      (.ok st.asks,
        { st with users := (updateUser st.users u
            { ua with balance := ua.balance - st.fee }) }) := by
  simp [user_check, h, not_lt.mpr hb, not_lt.mpr ht]

/-! ### Case analysis principles for the handlers -/

theorem user_bid_elim (st : AppState) (u : String) (p t : Int)
    (C : BidOutcome × AppState → Prop)
    (h1 : lookupUser st.users u = none → C (.userNotFound, st))
    (h2 : ∀ ua, lookupUser st.users u = some ua → ua.balance < st.fee →
      C (.insufficientFunds, st))
    (h3 : ∀ ua, lookupUser st.users u = some ua → st.fee ≤ ua.balance →
      t < st.trade_start_nanos →
      C (.notYetOpen, { st with users := (updateUser st.users u
        { ua with balance := ua.balance - st.fee }) }))
    (h4 : ∀ ua, lookupUser st.users u = some ua → st.fee ≤ ua.balance →
      st.trade_start_nanos ≤ t → ua.done_trade = true →
      C (.alreadyTraded, { st with users := (updateUser st.users u
        { ua with balance := ua.balance - st.fee }) }))
    (h5 : ∀ ua, lookupUser st.users u = some ua → st.fee ≤ ua.balance →
      st.trade_start_nanos ≤ t → ua.done_trade = false →
      (decrementAsk st.asks p).2 = false →
      C (.noMatch, { st with users := (updateUser st.users u
        { ua with balance := ua.balance - st.fee }) }))
    (h6 : ∀ ua, lookupUser st.users u = some ua → st.fee ≤ ua.balance →
      st.trade_start_nanos ≤ t → ua.done_trade = false →
      (decrementAsk st.asks p).2 = true →
      C (.matched, { st with
          users := (updateUser (updateUser st.users u
              { ua with balance := ua.balance - st.fee }) u
            { balance := ua.balance - st.fee - p, done_trade := true }),
          asks := (decrementAsk st.asks p).1 })) :
    C (user_bid st u p t) := by
  rcases hl : lookupUser st.users u with _ | ua
  · rw [user_bid_notFound st u p t hl]
    exact h1 hl
  · by_cases hb : ua.balance < st.fee
    · rw [user_bid_insufficient st u p t ua hl hb]
      exact h2 ua hl hb
    · replace hb := not_lt.mp hb
      by_cases ht : t < st.trade_start_nanos
      · rw [user_bid_notYetOpen st u p t ua hl hb ht]
        exact h3 ua hl hb ht
      · replace ht := not_lt.mp ht
        rcases hd : ua.done_trade with _ | _
        · rcases hm : (decrementAsk st.asks p).2 with _ | _
          · rw [user_bid_noMatch st u p t ua hl hb ht hd hm]
            exact h5 ua hl hb ht hd hm
          · rw [user_bid_matched st u p t ua hl hb ht hd hm]
            exact h6 ua hl hb ht hd hm
        · rw [user_bid_alreadyTraded st u p t ua hl hb ht hd]
          exact h4 ua hl hb ht hd

theorem user_ping_elim (st : AppState) (u : String) (t : Int)
    (C : PingOutcome × AppState → Prop)
    (h1 : lookupUser st.users u = none → C (.userNotFound, st))
    (h2 : ∀ ua, lookupUser st.users u = some ua → ua.balance < st.fee →
      C (.insufficientFunds, st))
    (h3 : ∀ ua, lookupUser st.users u = some ua → st.fee ≤ ua.balance →
      C (.ok ⟨t, st.trade_start_nanos, ua.balance - st.fee⟩,
        { st with users := (updateUser st.users u
          { ua with balance := ua.balance - st.fee }) })) :
    C (user_ping st u t) := by
  rcases hl : lookupUser st.users u with _ | ua
  · rw [user_ping_notFound st u t hl]
    exact h1 hl
  · by_cases hb : ua.balance < st.fee
    · rw [user_ping_insufficient st u t ua hl hb]
      exact h2 ua hl hb
    · replace hb := not_lt.mp hb
      rw [user_ping_ok st u t ua hl hb]
      exact h3 ua hl hb

theorem user_check_elim (st : AppState) (u : String) (t : Int)
    (C : CheckOutcome × AppState → Prop)
    (h1 : lookupUser st.users u = none → C (.userNotFound, st))
    (h2 : ∀ ua, lookupUser st.users u = some ua → ua.balance < st.fee →
      C (.insufficientFunds, st))
    (h3 : ∀ ua, lookupUser st.users u = some ua → st.fee ≤ ua.balance →
      t < st.trade_start_nanos →
      C (.notYetOpen, { st with users := (updateUser st.users u
        { ua with balance := ua.balance - st.fee }) }))
    (h4 : ∀ ua, lookupUser st.users u = some ua → st.fee ≤ ua.balance →
      st.trade_start_nanos ≤ t →
      C (.ok st.asks, { st with users := (updateUser st.users u
        { ua with balance := ua.balance - st.fee }) })) :
    C (user_check st u t) := by
  rcases hl : lookupUser st.users u with _ | ua
  · rw [user_check_notFound st u t hl]
    exact h1 hl
  · by_cases hb : ua.balance < st.fee
    · rw [user_check_insufficient st u t ua hl hb]
      exact h2 ua hl hb
    · replace hb := not_lt.mp hb
      by_cases ht : t < st.trade_start_nanos
      · rw [user_check_notYetOpen st u t ua hl hb ht]
        exact h3 ua hl hb ht
      · replace ht := not_lt.mp ht
        rw [user_check_ok st u t ua hl hb ht]
        exact h4 ua hl hb ht

/-! ### Claim C7: the ping contract -/

/-- C7: `Ping(user)` fails with `UserNotFound` iff the user is unknown, and
fails with `InsufficientFunds` iff the user exists with `balance < fee`, in
which case no fee is charged (the state is untouched); in every other case,
for every clock value and with no trade-start gating, it succeeds, debits
exactly the fee, and returns the clock value, the configured trade-start
time, and the post-debit balance. -/
theorem ping_contract (st : AppState) (u : String) (t : Int) :
    ((user_ping st u t).1 = .userNotFound ↔ lookupUser st.users u = none) ∧
    ((user_ping st u t).1 = .insufficientFunds ↔
      ∃ ua, lookupUser st.users u = some ua ∧ ua.balance < st.fee) ∧
    ((user_ping st u t).1 = .insufficientFunds → (user_ping st u t).2 = st) ∧
    (∀ ua, lookupUser st.users u = some ua → st.fee ≤ ua.balance →
      user_ping st u t =
        (.ok ⟨t, st.trade_start_nanos, ua.balance - st.fee⟩,
          { st with users := (updateUser st.users u
            { ua with balance := ua.balance - st.fee }) })) := by
  rcases hl : lookupUser st.users u with _ | ua
  · rw [user_ping_notFound st u t hl]
    refine ⟨by simp, by simp, fun _ => rfl, ?_⟩
    intro ua hua
    simp at hua
  · by_cases hb : ua.balance < st.fee
    · rw [user_ping_insufficient st u t ua hl hb]
      refine ⟨by simp, ?_, fun _ => rfl, ?_⟩
      · exact iff_of_true rfl ⟨ua, rfl, hb⟩
      · intro ua2 hua2 hb2
        injection hua2 with h2
        subst h2
        omega
    · replace hb := not_lt.mp hb
      rw [user_ping_ok st u t ua hl hb]
      refine ⟨by simp, ?_, by simp, ?_⟩
      · refine iff_of_false (by simp) ?_
        rintro ⟨ua2, hua2, hb2⟩
        injection hua2 with h2
        subst h2
        omega
      · intro ua2 hua2 hb2
        injection hua2 with h2
        subst h2
        rfl

/-- Witness for C7 at the §8 scenario: pinging `a` at clock 1 succeeds,
returns the times and the post-debit balance 90, and debits the fee. -/
theorem ping_contract_witness :
    lookupUser demoState.users "a" = some ⟨100, false⟩ ∧
    user_ping demoState "a" 1 =
      (.ok ⟨1, demoState.trade_start_nanos, 90⟩,
        { demoState with users := (updateUser demoState.users "a" ⟨90, false⟩) }) := by
  constructor
  · decide
  · have h := (ping_contract demoState "a" 1).2.2.2 ⟨100, false⟩ (by decide) (by decide)
    simpa using h

/-! ### Claim C8: failed validation leaves the state unchanged -/

/-- C8: any Ping, CheckAsks, or PlaceBid call that fails with
`UserNotFound`, and any such call that fails the fee-affordability check
with `InsufficientFunds`, leaves the entire auction state unchanged. -/
theorem fail_leaves_state_unchanged (st : AppState) (u : String) (p t : Int) :
    ((user_ping st u t).1 = .userNotFound ∨
        (user_ping st u t).1 = .insufficientFunds →
      (user_ping st u t).2 = st) ∧
    ((user_check st u t).1 = .userNotFound ∨
        (user_check st u t).1 = .insufficientFunds →
      (user_check st u t).2 = st) ∧
    ((user_bid st u p t).1 = .userNotFound ∨
        (user_bid st u p t).1 = .insufficientFunds →
      (user_bid st u p t).2 = st) := by
  refine ⟨?_, ?_, ?_⟩
  · exact user_ping_elim st u t
      (fun r => r.1 = .userNotFound ∨ r.1 = .insufficientFunds → r.2 = st)
      (fun _ _ => rfl) (fun _ _ _ _ => rfl) (fun ua hl hb h => by simp at h)
  · exact user_check_elim st u t
      (fun r => r.1 = .userNotFound ∨ r.1 = .insufficientFunds → r.2 = st)
      (fun _ _ => rfl) (fun _ _ _ _ => rfl) (fun ua hl hb ht h => by simp at h)
      (fun ua hl hb ht h => by simp at h)
  · exact user_bid_elim st u p t
      (fun r => r.1 = .userNotFound ∨ r.1 = .insufficientFunds → r.2 = st)
      (fun _ _ => rfl) (fun _ _ _ _ => rfl) (fun ua hl hb ht h => by simp at h)
      (fun ua hl hb ht hd h => by simp at h)
      (fun ua hl hb ht hd hm h => by simp at h)
      (fun ua hl hb ht hd hm h => by simp at h)

/-- Witness for C8: a bid by the unknown user `ghost` returns
`UserNotFound` and leaves the §8 scenario state untouched. -/
theorem fail_leaves_state_unchanged_witness :
    (user_bid demoState "ghost" 50 1).1 = .userNotFound ∧
    (user_bid demoState "ghost" 50 1).2 = demoState := by
  refine ⟨by decide, ?_⟩
  exact (fail_leaves_state_unchanged demoState "ghost" 50 1).2.2 (Or.inl (by decide))

/-! ### Claim C5: the fee is debited exactly once past the affordability check -/

/-- C5: every Ping, CheckAsks, or PlaceBid call that passes the
fee-affordability check debits the caller's balance by exactly the fee —
including calls the later gates reject (`NotYetOpen`, `AlreadyTraded`),
whose fee debit is never rolled back — and a matched PlaceBid additionally
debits the balance by the price. -/
theorem fee_debit_exact (st : AppState) (u : String) (p t : Int)
    (ua : UserAccount) (h : lookupUser st.users u = some ua)
    (hb : st.fee ≤ ua.balance) :
    balOf (user_ping st u t).2 u = some (ua.balance - st.fee) ∧
    balOf (user_check st u t).2 u = some (ua.balance - st.fee) ∧
    balOf (user_bid st u p t).2 u =
      some (ua.balance - st.fee -
        (if (user_bid st u p t).1 = .matched then p else 0)) := by
  refine ⟨?_, ?_, ?_⟩
  · rw [user_ping_ok st u t ua h hb]
    simp [balOf, lookupUser_updateUser_self st.users u ua _ h]
  · by_cases ht : t < st.trade_start_nanos
    · rw [user_check_notYetOpen st u t ua h hb ht]
      simp [balOf, lookupUser_updateUser_self st.users u ua _ h]
    · rw [user_check_ok st u t ua h hb (not_lt.mp ht)]
      simp [balOf, lookupUser_updateUser_self st.users u ua _ h]
  · by_cases ht : t < st.trade_start_nanos
    · rw [user_bid_notYetOpen st u p t ua h hb ht]
      simp [balOf, lookupUser_updateUser_self st.users u ua _ h]
    · replace ht := not_lt.mp ht
      rcases hd : ua.done_trade with _ | _
      · rcases hm : (decrementAsk st.asks p).2 with _ | _
        · rw [user_bid_noMatch st u p t ua h hb ht hd hm]
          simp [balOf, lookupUser_updateUser_self st.users u ua _ h]
        · rw [user_bid_matched st u p t ua h hb ht hd hm]
          have h1 := lookupUser_updateUser_self st.users u ua
            { ua with balance := ua.balance - st.fee } h
          simp [balOf,
            lookupUser_updateUser_self _ u _
              ⟨ua.balance - st.fee - p, true⟩ h1]
      · rw [user_bid_alreadyTraded st u p t ua h hb ht hd]
        simp [balOf, lookupUser_updateUser_self st.users u ua _ h]

/-- Witness for C5 at the §8 scenario: the match at price 50 debits
10 (fee) plus 50 (price), leaving balance 40. -/
theorem fee_debit_exact_witness :
    lookupUser demoState.users "a" = some ⟨100, false⟩ ∧
    balOf (user_bid demoState "a" 50 1).2 "a" = some 40 := by
  refine ⟨by decide, ?_⟩
  have h := (fee_debit_exact demoState "a" 50 1 ⟨100, false⟩
    (by decide) (by decide)).2.2
  have hm : (user_bid demoState "a" 50 1).1 = .matched := by decide
  rw [hm] at h
  simpa using h

/-! ### Claim C6: a bid against an absent or exhausted level mutates nothing further -/

/-- C6: a PlaceBid call that passes the user, fee, trade-start, and
done_trade gates but targets a price absent from the ask book (or present
with volume ≤ 0) returns status OK with `trade_succ = false`, mutates the
caller only by the fee already debited, leaves `done_trade` untouched, and
leaves the ask book unchanged. -/
theorem bid_no_match_no_mutation (st : AppState) (u : String) (p t : Int)
    (ua : UserAccount) (h : lookupUser st.users u = some ua)
    (hb : st.fee ≤ ua.balance) (ht : st.trade_start_nanos ≤ t)
    (hd : ua.done_trade = false)
    (habs : asksLookup st.asks p = none ∨
      ∃ v, asksLookup st.asks p = some v ∧ v ≤ 0) :
    (user_bid st u p t).1.status = .OK ∧
    (user_bid st u p t).1.trade_succ = false ∧
    (user_bid st u p t).2.users =
      updateUser st.users u { ua with balance := ua.balance - st.fee } ∧
    doneOf (user_bid st u p t).2 u = some false ∧
    (user_bid st u p t).2.asks = st.asks := by
  have hm : (decrementAsk st.asks p).2 = false := by
    rcases hmm : (decrementAsk st.asks p).2 with _ | _
    · rfl
    · obtain ⟨v, hv, hvp⟩ := (decrementAsk_matched_iff st.asks p).mp hmm
      rcases habs with habs | ⟨w, hw, hwp⟩
      · rw [habs] at hv
        cases hv
      · rw [hw] at hv
        injection hv with hv2
        omega
  rw [user_bid_noMatch st u p t ua h hb ht hd hm]
  refine ⟨rfl, rfl, rfl, ?_, rfl⟩
  simp [doneOf, lookupUser_updateUser_self st.users u ua _ h, hd]

/-- Witness for C6: the §8 scenario bid at the non-existent price 999
returns OK with no trade, debits only the fee, and leaves the book as is. -/
theorem bid_no_match_no_mutation_witness :
    (user_bid demoState "a" 999 1).1.status = .OK ∧
    (user_bid demoState "a" 999 1).1.trade_succ = false ∧
    (user_bid demoState "a" 999 1).2.asks = demoState.asks := by
  have h := bid_no_match_no_mutation demoState "a" 999 1 ⟨100, false⟩
    (by decide) (by decide) (by decide) (by decide) (Or.inl (by decide))
  exact ⟨h.1, h.2.1, h.2.2.2.2⟩

/-! ### Claim C2: a bid that matches settles as specified -/

/-- C2: for every PlaceBid call where the user exists, the balance covers
the fee, the clock is not before the trade start, `done_trade` is false,
and the ask book holds the price with positive volume: the call returns
status OK with `trade_succ = true`, the balance drops by exactly
fee + price, `done_trade` becomes true, and the level's volume drops by 1,
the entry being removed when it reaches 0. -/
theorem bid_match_success (st : AppState) (u : String) (p t : Int)
    (ua : UserAccount) (v : Int)
    (h : lookupUser st.users u = some ua) (hb : st.fee ≤ ua.balance)
    (ht : st.trade_start_nanos ≤ t) (hd : ua.done_trade = false)
    (hnd : (st.asks.map Prod.fst).Nodup)
    (hv : asksLookup st.asks p = some v) (hvp : 0 < v) :
    (user_bid st u p t).1.status = .OK ∧
    (user_bid st u p t).1.trade_succ = true ∧
    balOf (user_bid st u p t).2 u = some (ua.balance - st.fee - p) ∧
    doneOf (user_bid st u p t).2 u = some true ∧
    asksLookup (user_bid st u p t).2.asks p =
      (if v ≤ 1 then none else some (v - 1)) := by
  have hm : (decrementAsk st.asks p).2 = true :=
    (decrementAsk_matched_iff st.asks p).mpr ⟨v, hv, hvp⟩
  rw [user_bid_matched st u p t ua h hb ht hd hm]
  have h1 := lookupUser_updateUser_self st.users u ua
    { ua with balance := ua.balance - st.fee } h
  have h2 := lookupUser_updateUser_self _ u _
    (⟨ua.balance - st.fee - p, true⟩ : UserAccount) h1
  refine ⟨rfl, rfl, ?_, ?_, ?_⟩
  · simp [balOf, h2]
  · simp [doneOf, h2]
  · simpa using asksLookup_decrementAsk_self st.asks p v hnd hv hvp

/-- Witness for C2 at the §8 scenario: the bid at price 50 matches, the
balance becomes 100 - 10 - 50 = 40, done_trade is set, the level vanishes. -/
theorem bid_match_success_witness :
    (user_bid demoState "a" 50 1).1.trade_succ = true ∧
    balOf (user_bid demoState "a" 50 1).2 "a" = some 40 ∧
    doneOf (user_bid demoState "a" 50 1).2 "a" = some true ∧
    asksLookup (user_bid demoState "a" 50 1).2.asks 50 = none := by
  have h := bid_match_success demoState "a" 50 1 ⟨100, false⟩ 1
    (by decide) (by decide) (by decide) (by decide) (by decide)
    (by decide) (by decide)
  refine ⟨h.2.1, ?_, h.2.2.2.1, ?_⟩
  · simpa using h.2.2.1
  · simpa using h.2.2.2.2

/-! ### Claim C9: the board partitions and sorts -/

theorem insertByNegBalance_perm (x : String × UserAccount)
    (l : List (String × UserAccount)) :
    (insertByNegBalance x l).Perm (x :: l) := by
  induction l with
  | nil => rfl
  | cons y ys ih =>
    by_cases hc : -x.2.balance ≤ -y.2.balance
    · simp only [insertByNegBalance, if_pos hc]
      exact List.Perm.refl _
    · simp only [insertByNegBalance, if_neg hc]
      exact (ih.cons y).trans (List.Perm.swap x y ys)

theorem sortByNegBalance_perm (l : List (String × UserAccount)) :
    (sortByNegBalance l).Perm l := by
  induction l with
  | nil => rfl
  | cons x xs ih =>
    exact (insertByNegBalance_perm x (sortByNegBalance xs)).trans (ih.cons x)

theorem insertByNegBalance_sorted (x : String × UserAccount)
    (l : List (String × UserAccount))
    (h : List.Sorted (fun a b => b.2.balance ≤ a.2.balance) l) :
    List.Sorted (fun a b => b.2.balance ≤ a.2.balance)
      (insertByNegBalance x l) := by
  induction l with
  | nil => simp [insertByNegBalance]
  | cons y ys ih =>
    obtain ⟨hy, hys⟩ := List.sorted_cons.mp h
    by_cases hc : -x.2.balance ≤ -y.2.balance
    · simp only [insertByNegBalance, if_pos hc]
      refine List.sorted_cons.mpr ⟨?_, h⟩
      intro z hz
      rcases List.mem_cons.mp hz with rfl | hz2
      · omega
      · have := hy z hz2
        omega
    · simp only [insertByNegBalance, if_neg hc]
      refine List.sorted_cons.mpr ⟨?_, ih hys⟩
      intro z hz
      have hz2 := (insertByNegBalance_perm x ys).mem_iff.mp hz
      rcases List.mem_cons.mp hz2 with rfl | hz3
      · omega
      · exact hy z hz3

theorem sortByNegBalance_sorted (l : List (String × UserAccount)) :
    List.Sorted (fun a b => b.2.balance ≤ a.2.balance) (sortByNegBalance l) := by
  induction l with
  | nil => simp [sortByNegBalance]
  | cons x xs ih => exact insertByNegBalance_sorted x (sortByNegBalance xs) ih

/-- C9: `Board()` partitions exactly the known users into the done and the
running sequence by their done_trade flag, each sorted by descending
balance (no tiebreak specified), reporting each user's stored account, and
changes no state. -/
theorem board_partition_sorted (st : AppState) :
    (admin_board st).done_users.Perm
      (st.users.filter (fun x => x.2.done_trade)) ∧
    (admin_board st).running_users.Perm
      (st.users.filter (fun x => !x.2.done_trade)) ∧
    List.Sorted (fun a b => b.2.balance ≤ a.2.balance)
      (admin_board st).done_users ∧
    List.Sorted (fun a b => b.2.balance ≤ a.2.balance)
      (admin_board st).running_users ∧
    applyOp st .board = st :=
  ⟨sortByNegBalance_perm _, sortByNegBalance_perm _,
    sortByNegBalance_sorted _, sortByNegBalance_sorted _, rfl⟩

/-! ### done_trade along traces -/

theorem doneOf_user_ping (st : AppState) (u : String) (t : Int) (w : String) :
    doneOf (user_ping st u t).2 w = doneOf st w := by
  apply user_ping_elim st u t (fun r => doneOf r.2 w = doneOf st w)
  · intro _
    rfl
  · intro ua hl hb
    rfl
  · intro ua hl hb
    by_cases hw : w = u
    · subst hw
      simp [doneOf, lookupUser_updateUser_self st.users w ua _ hl, hl]
    · simp [doneOf, lookupUser_updateUser_ne st.users u w _ hw]

theorem doneOf_user_check (st : AppState) (u : String) (t : Int) (w : String) :
    doneOf (user_check st u t).2 w = doneOf st w := by
  apply user_check_elim st u t (fun r => doneOf r.2 w = doneOf st w)
  · intro _
    rfl
  · intro ua hl hb
    rfl
  · intro ua hl hb ht
    by_cases hw : w = u
    · subst hw
      simp [doneOf, lookupUser_updateUser_self st.users w ua _ hl, hl]
    · simp [doneOf, lookupUser_updateUser_ne st.users u w _ hw]
  · intro ua hl hb ht
    by_cases hw : w = u
    · subst hw
      simp [doneOf, lookupUser_updateUser_self st.users w ua _ hl, hl]
    · simp [doneOf, lookupUser_updateUser_ne st.users u w _ hw]

theorem doneOf_user_bid_ne (st : AppState) (u : String) (p t : Int)
    (w : String) (hw : w ≠ u) :
    doneOf (user_bid st u p t).2 w = doneOf st w := by
  apply user_bid_elim st u p t (fun r => doneOf r.2 w = doneOf st w)
  · intro _
    rfl
  · intro ua hl hb
    rfl
  · intro ua hl hb ht
    simp [doneOf, lookupUser_updateUser_ne st.users u w _ hw]
  · intro ua hl hb ht hd
    simp [doneOf, lookupUser_updateUser_ne st.users u w _ hw]
  · intro ua hl hb ht hd hm
    simp [doneOf, lookupUser_updateUser_ne st.users u w _ hw]
  · intro ua hl hb ht hd hm
    simp [doneOf, lookupUser_updateUser_ne _ u w _ hw]

theorem user_bid_matched_done (st : AppState) (u : String) (p t : Int)
    (h : (user_bid st u p t).1 = .matched) :
    doneOf (user_bid st u p t).2 u = some true := by
  revert h
  apply user_bid_elim st u p t
    (fun r => r.1 = .matched → doneOf r.2 u = some true)
  · intro _ hh
    simp at hh
  · intro ua hl hb hh
    simp at hh
  · intro ua hl hb ht hh
    simp at hh
  · intro ua hl hb ht hd hh
    simp at hh
  · intro ua hl hb ht hd hm hh
    simp at hh
  · intro ua hl hb ht hd hm _
    have h1 := lookupUser_updateUser_self st.users u ua
      { ua with balance := ua.balance - st.fee } hl
    have h2 := lookupUser_updateUser_self _ u _
      (⟨ua.balance - st.fee - p, true⟩ : UserAccount) h1
    simp [doneOf, h2]

theorem user_bid_not_matched_done (st : AppState) (u : String) (p t : Int)
    (h : (user_bid st u p t).1 ≠ .matched) :
    doneOf (user_bid st u p t).2 u = doneOf st u := by
  revert h
  apply user_bid_elim st u p t
    (fun r => r.1 ≠ .matched → doneOf r.2 u = doneOf st u)
  · intro _ _
    rfl
  · intro ua hl hb _
    rfl
  · intro ua hl hb ht _
    simp [doneOf, lookupUser_updateUser_self st.users u ua _ hl, hl]
  · intro ua hl hb ht hd _
    simp [doneOf, lookupUser_updateUser_self st.users u ua _ hl, hl]
  · intro ua hl hb ht hd hm _
    simp [doneOf, lookupUser_updateUser_self st.users u ua _ hl, hl]
  · intro ua hl hb ht hd hm hh
    exact absurd rfl hh

theorem doneOf_applyOp_true (st : AppState) (op : Op) (u : String)
    (h : doneOf st u = some true) : doneOf (applyOp st op) u = some true := by
  cases op with
  | ping w t' =>
    show doneOf (user_ping st w t').2 u = some true
    rw [doneOf_user_ping]
    exact h
  | check w t' =>
    show doneOf (user_check st w t').2 u = some true
    rw [doneOf_user_check]
    exact h
  | board => exact h
  | bid w q t' =>
    show doneOf (user_bid st w q t').2 u = some true
    by_cases hw : u = w
    · subst hw
      by_cases hm : (user_bid st u q t').1 = .matched
      · exact user_bid_matched_done st u q t' hm
      · rw [user_bid_not_matched_done st u q t' hm]
        exact h
    · rw [doneOf_user_bid_ne st w q t' u hw]
      exact h

theorem bid_blocked_of_done (st : AppState) (u : String) (p t : Int)
    (ua : UserAccount) (h : lookupUser st.users u = some ua)
    (hd : ua.done_trade = true) :
    (user_bid st u p t).1 =
      (if ua.balance < st.fee then .insufficientFunds
        else if t < st.trade_start_nanos then .notYetOpen
        else .alreadyTraded) := by
  by_cases hb : ua.balance < st.fee
  · rw [user_bid_insufficient st u p t ua h hb]
    simp [hb]
  · by_cases ht : t < st.trade_start_nanos
    · rw [user_bid_notYetOpen st u p t ua h (not_lt.mp hb) ht]
      simp [hb, ht]
    · rw [user_bid_alreadyTraded st u p t ua h (not_lt.mp hb) (not_lt.mp ht) hd]
      simp [hb, ht]

theorem succByUser_zero_of_done (ops : List Op) :
    ∀ st u, doneOf st u = some true → succByUser st ops u = 0 := by
  induction ops with
  | nil =>
    intro st u _
    rfl
  | cons op ops ih =>
    intro st u h
    have h2 := doneOf_applyOp_true st op u h
    cases op with
    | bid w q t' =>
      simp only [succByUser]
      rw [if_neg, ih _ _ h2]
      rintro ⟨rfl, hm⟩
      obtain ⟨ua, hl, hd⟩ :
          ∃ ua, lookupUser st.users w = some ua ∧ ua.done_trade = true := by
        unfold doneOf at h
        rcases hlk : lookupUser st.users w with _ | ua
        · rw [hlk] at h
          simp at h
        · rw [hlk] at h
          simp at h
          exact ⟨ua, rfl, h⟩
      rw [bid_blocked_of_done st w q t' ua hl hd] at hm
      split_ifs at hm
    | ping w t' =>
      simp only [succByUser]
      exact ih _ _ h2
    | check w t' =>
      simp only [succByUser]
      exact ih _ _ h2
    | board =>
      simp only [succByUser]
      exact ih _ _ h2

theorem succByUser_le_one (ops : List Op) :
    ∀ st u, succByUser st ops u ≤ 1 := by
  induction ops with
  | nil =>
    intro st u
    simp [succByUser]
  | cons op ops ih =>
    intro st u
    cases op with
    | bid w q t' =>
      simp only [succByUser]
      by_cases hc : w = u ∧ (user_bid st w q t').1 = .matched
      · rw [if_pos hc]
        obtain ⟨rfl, hm⟩ := hc
        have hz := succByUser_zero_of_done ops (applyOp st (.bid w q t')) w
          (user_bid_matched_done st w q t' hm)
        omega
      · rw [if_neg hc]
        have := ih (applyOp st (.bid w q t')) u
        omega
    | ping w t' =>
      simp only [succByUser]
      exact ih _ u
    | check w t' =>
      simp only [succByUser]
      exact ih _ u
    | board =>
      simp only [succByUser]
      exact ih _ u

/-! ### Claim C4: one trade per user -/

/-- C4 (amended): for every user at most one PlaceBid call along any
serialized trace ever returns `trade_succ = true`; a matched bid sets the
user's done_trade flag, the flag never clears, and every PlaceBid by a user
whose flag is set fails with a 403 outcome and `trade_succ = false` —
specifically `AlreadyTraded` when the fee check and the trade-start gate
pass (the claim's `InsufficientFunds`/`NotYetOpen` exceptions otherwise). -/
theorem one_trade_per_user (st : AppState) (ops : List Op) (u : String) :
    succByUser st ops u ≤ 1 ∧
    (doneOf st u = some true → succByUser st ops u = 0) ∧
    (∀ op, doneOf st u = some true → doneOf (applyOp st op) u = some true) ∧
    (∀ p t, (user_bid st u p t).1 = .matched →
      doneOf (user_bid st u p t).2 u = some true) ∧
    (∀ ua p t, lookupUser st.users u = some ua → ua.done_trade = true →
      (user_bid st u p t).1.status = .FORBIDDEN ∧
      (user_bid st u p t).1.trade_succ = false ∧
      (st.fee ≤ ua.balance → st.trade_start_nanos ≤ t →
        (user_bid st u p t).1 = .alreadyTraded)) := by
  refine ⟨succByUser_le_one ops st u,
    fun h => succByUser_zero_of_done ops st u h,
    fun op h => doneOf_applyOp_true st op u h,
    fun p t h => user_bid_matched_done st u p t h, ?_⟩
  intro ua p t hl hd
  rw [bid_blocked_of_done st u p t ua hl hd]
  refine ⟨?_, ?_, ?_⟩
  · split_ifs <;> rfl
  · split_ifs <;> rfl
  · intro hb ht2
    rw [if_neg (not_lt.mpr hb), if_neg (not_lt.mpr ht2)]

/-- Counterexample to C4 as stated: in `bigFeeState` (fee 60), `a` matches
at price 0 and is left with balance 40 < fee, so `a`'s next bid fails the
fee check and returns `InsufficientFunds`, not `AlreadyTraded`. -/
theorem one_trade_counterexample :
    (user_bid bigFeeState "a" 0 1).1 = .matched ∧
    (user_bid (user_bid bigFeeState "a" 0 1).2 "a" 0 1).1 =
      .insufficientFunds ∧
    (user_bid (user_bid bigFeeState "a" 0 1).2 "a" 0 1).1 ≠
      .alreadyTraded := by
  decide

/-- Witness for C4 at the §8 scenario: after `a`'s successful bid, a trace
of further bids by `a` yields no further success, and the very next bid
returns `AlreadyTraded`. -/
theorem one_trade_witness :
    doneOf (user_bid demoState "a" 50 1).2 "a" = some true ∧
    succByUser (user_bid demoState "a" 50 1).2 [Op.bid "a" 50 2] "a" = 0 ∧
    (user_bid (user_bid demoState "a" 50 1).2 "a" 50 2).1 = .alreadyTraded := by
  refine ⟨by decide, ?_, ?_⟩
  · exact (one_trade_per_user (user_bid demoState "a" 50 1).2
      [Op.bid "a" 50 2] "a").2.1 (by decide)
  · exact ((one_trade_per_user (user_bid demoState "a" 50 1).2
      [Op.bid "a" 50 2] "a").2.2.2.2 ⟨40, true⟩ 50 2
      (by decide) (by decide)).2.2 (by decide) (by decide)

/-! ### Claim C10: volume/done_trade conservation -/

theorem user_ping_asks (st : AppState) (u : String) (t : Int) :
    (user_ping st u t).2.asks = st.asks := by
  apply user_ping_elim st u t (fun r => r.2.asks = st.asks) <;> intros <;> rfl

theorem user_check_asks (st : AppState) (u : String) (t : Int) :
    (user_check st u t).2.asks = st.asks := by
  apply user_check_elim st u t (fun r => r.2.asks = st.asks) <;> intros <;> rfl

theorem applyOp_conserves (st : AppState) (op : Op) :
    totalVol (applyOp st op).asks + (doneCount (applyOp st op).users : Int) =
      totalVol st.asks + (doneCount st.users : Int) := by
  cases op with
  | ping u t =>
    apply user_ping_elim st u t (fun r =>
      totalVol r.2.asks + (doneCount r.2.users : Int) =
        totalVol st.asks + (doneCount st.users : Int))
    · intro _
      rfl
    · intro ua hl hb
      rfl
    · intro ua hl hb
      simp [doneCount_updateUser_keep st.users u ua
        { ua with balance := ua.balance - st.fee } hl rfl]
  | check u t =>
    apply user_check_elim st u t (fun r =>
      totalVol r.2.asks + (doneCount r.2.users : Int) =
        totalVol st.asks + (doneCount st.users : Int))
    · intro _
      rfl
    · intro ua hl hb
      rfl
    · intro ua hl hb ht
      simp [doneCount_updateUser_keep st.users u ua
        { ua with balance := ua.balance - st.fee } hl rfl]
    · intro ua hl hb ht
      simp [doneCount_updateUser_keep st.users u ua
        { ua with balance := ua.balance - st.fee } hl rfl]
  | board => rfl
  | bid u p t =>
    apply user_bid_elim st u p t (fun r =>
      totalVol r.2.asks + (doneCount r.2.users : Int) =
        totalVol st.asks + (doneCount st.users : Int))
    · intro _
      rfl
    · intro ua hl hb
      rfl
    · intro ua hl hb ht
      simp [doneCount_updateUser_keep st.users u ua
        { ua with balance := ua.balance - st.fee } hl rfl]
    · intro ua hl hb ht hd
      simp [doneCount_updateUser_keep st.users u ua
        { ua with balance := ua.balance - st.fee } hl rfl]
    · intro ua hl hb ht hd hm
      simp [doneCount_updateUser_keep st.users u ua
        { ua with balance := ua.balance - st.fee } hl rfl]
    · intro ua hl hb ht hd hm
      have h1 := lookupUser_updateUser_self st.users u ua
        { ua with balance := ua.balance - st.fee } hl
      have hkeep := doneCount_updateUser_keep st.users u ua
        { ua with balance := ua.balance - st.fee } hl rfl
      have hset := doneCount_updateUser_set _ u
        { ua with balance := ua.balance - st.fee }
        (⟨ua.balance - st.fee - p, true⟩ : UserAccount) h1 hd rfl
      have hvol := totalVol_decrementAsk st.asks p hm
      simp only []
      rw [hvol, hset, hkeep]
      push_cast
      omega

theorem run_conserves (ops : List Op) :
    ∀ st : AppState,
      totalVol (run st ops).asks + (doneCount (run st ops).users : Int) =
        totalVol st.asks + (doneCount st.users : Int) := by
  induction ops with
  | nil =>
    intro st
    rfl
  | cons op ops ih =>
    intro st
    exact (ih (applyOp st op)).trans (applyOp_conserves st op)

/-- C10: starting from a state in which no user has done_trade set and the
ask book holds total volume `V0`, after any serialized trace of Ping,
CheckAsks, PlaceBid and Board calls, `V0` minus the remaining total volume
equals the number of users whose done_trade flag is true: a matched bid is
the only transition touching either quantity, and it removes one unit while
flipping exactly one flag from false to true. -/
theorem volume_done_conservation (st : AppState) (ops : List Op) (V0 : Int)
    (h0 : doneCount st.users = 0) (hV : totalVol st.asks = V0) :
    V0 - totalVol (run st ops).asks =
      (doneCount (run st ops).users : Int) := by
  have h := run_conserves ops st
  rw [hV, h0] at h
  omega

/-- Witness for C10 at the §8 scenario: after the single matching bid the
book is empty and exactly one user is done. -/
theorem volume_done_conservation_witness :
    doneCount demoState.users = 0 ∧ totalVol demoState.asks = 1 ∧
    1 - totalVol (run demoState [Op.bid "a" 50 1]).asks =
      (doneCount (run demoState [Op.bid "a" 50 1]).users : Int) :=
  ⟨by decide, by decide,
    volume_done_conservation demoState [Op.bid "a" 50 1] 1
      (by decide) (by decide)⟩

/-! ### Claim C3: balance non-negativity -/

theorem updateUser_nonneg (users : List (String × UserAccount)) (u : String)
    (ua2 : UserAccount) (h : ∀ x ∈ users, 0 ≤ x.2.balance)
    (h2 : 0 ≤ ua2.balance) :
    ∀ x ∈ updateUser users u ua2, 0 ≤ x.2.balance := by
  induction users with
  | nil =>
    intro x hx
    simp [updateUser] at hx
  | cons y rest ih =>
    obtain ⟨n, a⟩ := y
    intro x hx
    by_cases hn : n = u
    · simp only [updateUser, if_pos hn] at hx
      rcases List.mem_cons.mp hx with rfl | hx2
      · exact h2
      · exact h x (List.mem_cons_of_mem _ hx2)
    · simp only [updateUser, if_neg hn] at hx
      rcases List.mem_cons.mp hx with rfl | hx2
      · exact h _ (List.mem_cons_self _ _)
      · exact ih (fun z hz => h z (List.mem_cons_of_mem _ hz)) x hx2

/-- C3 (amended): each fee debit in Ping, CheckAsks, and PlaceBid is
preceded by a sufficiency check, so those debits preserve non-negative
balances — including every PlaceBid that does not match; but the price
debit of a matched PlaceBid is not guarded, and preserves non-negativity
only under the extra assumption that the bidder's balance covers
fee + price. -/
theorem balance_nonneg_guarded (st : AppState)
    (h : ∀ x ∈ st.users, 0 ≤ x.2.balance) :
    (∀ u t, ∀ x ∈ (user_ping st u t).2.users, 0 ≤ x.2.balance) ∧
    (∀ u t, ∀ x ∈ (user_check st u t).2.users, 0 ≤ x.2.balance) ∧
    (∀ u p t, (user_bid st u p t).1 ≠ .matched →
      ∀ x ∈ (user_bid st u p t).2.users, 0 ≤ x.2.balance) ∧
    (∀ u p t ua, lookupUser st.users u = some ua →
      st.fee + p ≤ ua.balance →
      ∀ x ∈ (user_bid st u p t).2.users, 0 ≤ x.2.balance) := by
  refine ⟨?_, ?_, ?_, ?_⟩
  · intro u t
    apply user_ping_elim st u t (fun r => ∀ x ∈ r.2.users, 0 ≤ x.2.balance)
    · intro _
      exact h
    · intro ua hl hb
      exact h
    · intro ua hl hb
      exact updateUser_nonneg st.users u _ h (by simp; omega)
  · intro u t
    apply user_check_elim st u t (fun r => ∀ x ∈ r.2.users, 0 ≤ x.2.balance)
    · intro _
      exact h
    · intro ua hl hb
      exact h
    · intro ua hl hb ht
      exact updateUser_nonneg st.users u _ h (by simp; omega)
    · intro ua hl hb ht
      exact updateUser_nonneg st.users u _ h (by simp; omega)
  · intro u p t
    apply user_bid_elim st u p t
      (fun r => r.1 ≠ .matched → ∀ x ∈ r.2.users, 0 ≤ x.2.balance)
    · intro _ _
      exact h
    · intro ua hl hb _
      exact h
    · intro ua hl hb ht _
      exact updateUser_nonneg st.users u _ h (by simp; omega)
    · intro ua hl hb ht hd _
      exact updateUser_nonneg st.users u _ h (by simp; omega)
    · intro ua hl hb ht hd hm _
      exact updateUser_nonneg st.users u _ h (by simp; omega)
    · intro ua hl hb ht hd hm hh
      exact absurd rfl hh
  · intro u p t uaA hA hAff
    apply user_bid_elim st u p t (fun r => ∀ x ∈ r.2.users, 0 ≤ x.2.balance)
    · intro _
      exact h
    · intro ua hl hb
      exact h
    · intro ua hl hb ht
      exact updateUser_nonneg st.users u _ h (by simp; omega)
    · intro ua hl hb ht hd
      exact updateUser_nonneg st.users u _ h (by simp; omega)
    · intro ua hl hb ht hd hm
      exact updateUser_nonneg st.users u _ h (by simp; omega)
    · intro ua hl hb ht hd hm
      rw [hA] at hl
      injection hl with e
      subst e
      refine updateUser_nonneg _ u _
        (updateUser_nonneg st.users u _ h (by simp; omega)) ?_
      simp
      omega

/-- Counterexample to C3 as stated: from a state with every balance
non-negative and a non-negative fee, one matched PlaceBid at price 100
leaves user `a` at balance -90 — the price debit has no sufficiency
check. -/
theorem balance_nonneg_counterexample :
    (∀ x ∈ overdrawState.users, 0 ≤ x.2.balance) ∧
    0 ≤ overdrawState.fee ∧
    balOf (run overdrawState [Op.bid "a" 100 1]) "a" = some (-90) := by
  decide

/-- Witness for C3 (amended) at the §8 scenario: fee + price = 60 ≤ 100,
so the matched bid keeps all balances non-negative. -/
theorem balance_nonneg_witness :
    (∀ x ∈ demoState.users, 0 ≤ x.2.balance) ∧
    (∀ x ∈ (user_bid demoState "a" 50 1).2.users, 0 ≤ x.2.balance) := by
  refine ⟨by decide, ?_⟩
  exact (balance_nonneg_guarded demoState (by decide)).2.2.2 "a" 50 1
    ⟨100, false⟩ (by decide) (by decide)

/-! ### Claim C1: single winner per unit of volume -/

theorem passesGates_iff (st : AppState) (u : String) (t : Int) :
    passesGates st u t = true ↔
      ∃ ua, lookupUser st.users u = some ua ∧ st.fee ≤ ua.balance ∧
        st.trade_start_nanos ≤ t ∧ ua.done_trade = false := by
  unfold passesGates
  rcases hl : lookupUser st.users u with _ | ua
  · simp
  · simp [Bool.and_eq_true, Bool.not_eq_true', and_assoc]

theorem user_bid_matched_iff (st : AppState) (u : String) (p t : Int) :
    (user_bid st u p t).1 = .matched ↔
      passesGates st u t = true ∧
        ∃ v, asksLookup st.asks p = some v ∧ 0 < v := by
  rw [passesGates_iff]
  apply user_bid_elim st u p t (fun r => r.1 = .matched ↔
    (∃ ua, lookupUser st.users u = some ua ∧ st.fee ≤ ua.balance ∧
      st.trade_start_nanos ≤ t ∧ ua.done_trade = false) ∧
    ∃ v, asksLookup st.asks p = some v ∧ 0 < v)
  · intro hl
    refine iff_of_false (by simp) ?_
    rintro ⟨⟨ua, hua, _⟩, _⟩
    rw [hl] at hua
    cases hua
  · intro ua hl hb
    refine iff_of_false (by simp) ?_
    rintro ⟨⟨ua2, hua2, hb2, _⟩, _⟩
    rw [hl] at hua2
    injection hua2 with e
    subst e
    omega
  · intro ua hl hb ht
    refine iff_of_false (by simp) ?_
    rintro ⟨⟨ua2, hua2, _, ht2, _⟩, _⟩
    omega
  · intro ua hl hb ht hd
    refine iff_of_false (by simp) ?_
    rintro ⟨⟨ua2, hua2, _, _, hd2⟩, _⟩
    rw [hl] at hua2
    injection hua2 with e
    subst e
    rw [hd] at hd2
    cases hd2
  · intro ua hl hb ht hd hm
    refine iff_of_false (by simp) ?_
    rintro ⟨_, v, hv, hvp⟩
    rw [(decrementAsk_matched_iff st.asks p).mpr ⟨v, hv, hvp⟩] at hm
    cases hm
  · intro ua hl hb ht hd hm
    exact iff_of_true rfl
      ⟨⟨ua, hl, hb, ht, hd⟩, (decrementAsk_matched_iff st.asks p).mp hm⟩

theorem user_bid_asks_matched (st : AppState) (u : String) (p t : Int)
    (h : (user_bid st u p t).1 = .matched) :
    (user_bid st u p t).2.asks = (decrementAsk st.asks p).1 := by
  revert h
  apply user_bid_elim st u p t
    (fun r => r.1 = .matched → r.2.asks = (decrementAsk st.asks p).1)
  · intro _ hh
    simp at hh
  · intro ua hl hb hh
    simp at hh
  · intro ua hl hb ht hh
    simp at hh
  · intro ua hl hb ht hd hh
    simp at hh
  · intro ua hl hb ht hd hm hh
    simp at hh
  · intro ua hl hb ht hd hm _
    rfl

theorem user_bid_asks_not_matched (st : AppState) (u : String) (p t : Int)
    (h : (user_bid st u p t).1 ≠ .matched) :
    (user_bid st u p t).2.asks = st.asks := by
  revert h
  apply user_bid_elim st u p t
    (fun r => r.1 ≠ .matched → r.2.asks = st.asks)
  · intro _ _
    rfl
  · intro ua hl hb _
    rfl
  · intro ua hl hb ht _
    rfl
  · intro ua hl hb ht hd _
    rfl
  · intro ua hl hb ht hd hm _
    rfl
  · intro ua hl hb ht hd hm hh
    exact absurd rfl hh

theorem applyOp_asks_nodup (st : AppState) (op : Op)
    (hnd : (st.asks.map Prod.fst).Nodup) :
    ((applyOp st op).asks.map Prod.fst).Nodup := by
  cases op with
  | ping w t' =>
    show (((user_ping st w t').2.asks).map Prod.fst).Nodup
    rw [user_ping_asks]
    exact hnd
  | check w t' =>
    show (((user_check st w t').2.asks).map Prod.fst).Nodup
    rw [user_check_asks]
    exact hnd
  | board => exact hnd
  | bid w q t' =>
    show (((user_bid st w q t').2.asks).map Prod.fst).Nodup
    by_cases hm : (user_bid st w q t').1 = .matched
    · rw [user_bid_asks_matched st w q t' hm]
      exact decrementAsk_keys_nodup st.asks q hnd
    · rw [user_bid_asks_not_matched st w q t' hm]
      exact hnd

theorem single_winner_aux (ops : List Op) :
    ∀ (st : AppState) (p c : Int),
      (st.asks.map Prod.fst).Nodup → 0 ≤ c → volAt st p = c →
      ((succAtPrice st ops p : Int) = min c (gateCount st ops p) ∧
        volAt (run st ops) p = max 0 (c - (gateCount st ops p : Int))) := by
  induction ops with
  | nil =>
    intro st p c hnd hc hvol
    constructor
    · simp [succAtPrice, gateCount]
      omega
    · simp [run, gateCount]
      omega
  | cons op ops ih =>
    intro st p c hnd hc hvol
    cases op with
    | ping w t' =>
      have ha : (user_ping st w t').2.asks = st.asks := user_ping_asks st w t'
      obtain ⟨ih1, ih2⟩ := ih (applyOp st (.ping w t')) p c
        (by show (((user_ping st w t').2.asks).map Prod.fst).Nodup
            rw [ha]; exact hnd)
        hc
        (by show volAt (user_ping st w t').2 p = c
            unfold volAt; rw [ha]; exact hvol)
      exact ⟨ih1, ih2⟩
    | check w t' =>
      have ha : (user_check st w t').2.asks = st.asks := user_check_asks st w t'
      obtain ⟨ih1, ih2⟩ := ih (applyOp st (.check w t')) p c
        (by show (((user_check st w t').2.asks).map Prod.fst).Nodup
            rw [ha]; exact hnd)
        hc
        (by show volAt (user_check st w t').2 p = c
            unfold volAt; rw [ha]; exact hvol)
      exact ⟨ih1, ih2⟩
    | board =>
      obtain ⟨ih1, ih2⟩ := ih (applyOp st .board) p c hnd hc hvol
      exact ⟨ih1, ih2⟩
    | bid w q t' =>
      by_cases hq : q = p
      · subst hq
        by_cases hg : passesGates st w t' = true
        · by_cases hcpos : 0 < c
          · have hsome : asksLookup st.asks q = some c := by
              unfold volAt at hvol
              rcases hh : asksLookup st.asks q with _ | v
              · rw [hh] at hvol
                simp at hvol
                omega
              · rw [hh] at hvol
                simp at hvol
                rw [hvol]
            have hm : (user_bid st w q t').1 = .matched :=
              (user_bid_matched_iff st w q t').mpr ⟨hg, c, hsome, hcpos⟩
            have hasks : (user_bid st w q t').2.asks =
                (decrementAsk st.asks q).1 :=
              user_bid_asks_matched st w q t' hm
            have hnd2 := applyOp_asks_nodup st (.bid w q t') hnd
            have hvol2 : volAt (applyOp st (.bid w q t')) q = c - 1 := by
              show volAt (user_bid st w q t').2 q = c - 1
              unfold volAt
              rw [hasks, asksLookup_decrementAsk_self st.asks q c hnd hsome hcpos]
              by_cases hc1 : c ≤ 1
              · simp [hc1]
                omega
              · simp [hc1]
            obtain ⟨ih1, ih2⟩ := ih (applyOp st (.bid w q t')) q (c - 1)
              hnd2 (by omega) hvol2
            have hgt : gateCount st (Op.bid w q t' :: ops) q =
                1 + gateCount (applyOp st (Op.bid w q t')) ops q := by
              simp [gateCount, hg]
            have hsc : succAtPrice st (Op.bid w q t' :: ops) q =
                1 + succAtPrice (applyOp st (Op.bid w q t')) ops q := by
              simp [succAtPrice, hm]
            constructor
            · rw [hsc, hgt]
              push_cast at ih1 ⊢
              omega
            · rw [show run st (Op.bid w q t' :: ops) =
                run (applyOp st (Op.bid w q t')) ops from rfl, hgt, ih2]
              push_cast
              omega
          · have hc0 : c = 0 := by omega
            subst hc0
            have hnm : (user_bid st w q t').1 ≠ .matched := by
              intro hcon
              rw [user_bid_matched_iff] at hcon
              obtain ⟨_, v, hv, hvp⟩ := hcon
              unfold volAt at hvol
              rw [hv] at hvol
              simp at hvol
              omega
            have hasks := user_bid_asks_not_matched st w q t' hnm
            obtain ⟨ih1, ih2⟩ := ih (applyOp st (.bid w q t')) q 0
              (by show (((user_bid st w q t').2.asks).map Prod.fst).Nodup
                  rw [hasks]; exact hnd)
              le_rfl
              (by show volAt (user_bid st w q t').2 q = 0
                  unfold volAt; rw [hasks]; exact hvol)
            have hgt : gateCount st (Op.bid w q t' :: ops) q =
                1 + gateCount (applyOp st (Op.bid w q t')) ops q := by
              simp [gateCount, hg]
            have hsc : succAtPrice st (Op.bid w q t' :: ops) q =
                succAtPrice (applyOp st (Op.bid w q t')) ops q := by
              simp [succAtPrice, hnm]
            constructor
            · rw [hsc, hgt]
              push_cast at ih1 ⊢
              omega
            · rw [show run st (Op.bid w q t' :: ops) =
                run (applyOp st (Op.bid w q t')) ops from rfl, hgt, ih2]
              push_cast
              omega
        · have hnm : (user_bid st w q t').1 ≠ .matched := by
            intro hcon
            rw [user_bid_matched_iff] at hcon
            exact hg hcon.1
          have hasks := user_bid_asks_not_matched st w q t' hnm
          obtain ⟨ih1, ih2⟩ := ih (applyOp st (.bid w q t')) q c
            (by show (((user_bid st w q t').2.asks).map Prod.fst).Nodup
                rw [hasks]; exact hnd)
            hc
            (by show volAt (user_bid st w q t').2 q = c
                unfold volAt; rw [hasks]; exact hvol)
          have hgt : gateCount st (Op.bid w q t' :: ops) q =
              gateCount (applyOp st (Op.bid w q t')) ops q := by
            simp [gateCount, hg]
          have hsc : succAtPrice st (Op.bid w q t' :: ops) q =
              succAtPrice (applyOp st (Op.bid w q t')) ops q := by
            simp [succAtPrice, hnm]
          constructor
          · rw [hsc, hgt]
            exact ih1
          · rw [show run st (Op.bid w q t' :: ops) =
              run (applyOp st (Op.bid w q t')) ops from rfl, hgt]
            exact ih2
      · have hvp : volAt (applyOp st (.bid w q t')) p = volAt st p := by
          show volAt (user_bid st w q t').2 p = volAt st p
          unfold volAt
          by_cases hm : (user_bid st w q t').1 = .matched
          · rw [user_bid_asks_matched st w q t' hm,
              asksLookup_decrementAsk_ne st.asks q p hq]
          · rw [user_bid_asks_not_matched st w q t' hm]
        have hnd2 := applyOp_asks_nodup st (.bid w q t') hnd
        obtain ⟨ih1, ih2⟩ := ih (applyOp st (.bid w q t')) p c hnd2 hc
          (hvp.trans hvol)
        have hgt : gateCount st (Op.bid w q t' :: ops) p =
            gateCount (applyOp st (Op.bid w q t')) ops p := by
          simp [gateCount, hq]
        have hsc : succAtPrice st (Op.bid w q t' :: ops) p =
            succAtPrice (applyOp st (Op.bid w q t')) ops p := by
          simp [succAtPrice, hq]
        constructor
        · rw [hsc, hgt]
          exact ih1
        · rw [show run st (Op.bid w q t' :: ops) =
            run (applyOp st (Op.bid w q t')) ops from rfl, hgt]
          exact ih2

/-- C1 (amended): for a price level seeded with volume `v > 0`, over any
serialized trace of calls, the number of PlaceBid calls at that price that
return `trade_succ = true` is exactly `min(v, k)` where `k` counts the bids
at that price that pass the user-side gates (user exists, balance ≥ fee,
trading open, done_trade unset) at their own point of execution — not all
bidding attempts, as attempts rejected at those gates never reach the
book — and the level's remaining volume afterwards is `max(0, v - k)`. -/
theorem single_winner_invariant (st : AppState) (ops : List Op) (p v : Int)
    (hnd : (st.asks.map Prod.fst).Nodup)
    (hv : asksLookup st.asks p = some v) (hvp : 0 < v) :
    (succAtPrice st ops p : Int) = min v (gateCount st ops p) ∧
    volAt (run st ops) p = max 0 (v - (gateCount st ops p : Int)) := by
  apply single_winner_aux ops st p v hnd (by omega)
  unfold volAt
  rw [hv]
  rfl

/-- Counterexample to C1 as stated: in `twoUserState` the level at price 5
holds volume 3 and two distinct users make one bid each at price 5, yet
only one bid succeeds (`b` cannot pay the fee), while the claim's
`min(v, number_of_distinct_bidding_attempts) = min(3, 2) = 2`. -/
theorem single_winner_counterexample :
    asksLookup twoUserState.asks 5 = some 3 ∧
    bidsAtPrice twoUserOps 5 = 2 ∧
    succAtPrice twoUserState twoUserOps 5 = 1 ∧
    ¬ ((succAtPrice twoUserState twoUserOps 5 : Int) =
        min 3 (bidsAtPrice twoUserOps 5 : Int)) := by
  decide

/-- Witness for C1 (amended) on the same trace: exactly one of the two
bids passes the gates, so matched = min(3, 1) = 1 and volume 2 remains. -/
theorem single_winner_witness :
    asksLookup twoUserState.asks 5 = some 3 ∧
    gateCount twoUserState twoUserOps 5 = 1 ∧
    (succAtPrice twoUserState twoUserOps 5 : Int) = min 3 1 ∧
    volAt (run twoUserState twoUserOps) 5 = max 0 (3 - 1) := by
  have h := single_winner_invariant twoUserState twoUserOps 5 3
    (by decide) (by decide) (by decide)
  have hg : gateCount twoUserState twoUserOps 5 = 1 := by decide
  rw [hg] at h
  refine ⟨by decide, hg, ?_, ?_⟩
  · simpa using h.1
  · simpa using h.2

end GuessTrade
